import Mathlib

/-!
Verification of the `terminus.rs` terminal-UI module of aparte.

Shallow embedding conventions:
* Rust `&str` / `String` values are embedded either as `List Char` (when the
  code iterates over `chars()`) or as `List Nat` of UTF-8 bytes (when the code
  indexes by byte position, as `Input` does).
* Rust `u16` / `usize` arithmetic that can panic in debug builds (overflow,
  underflow, division by zero) is embedded with checked operations returning
  `Option`; `none` models the panic / fatal arithmetic.
* Terminal drawing (`redraw`, `goto!`, `vprint!`) writes to the screen; the
  only widget-state field it touches is `BufferedWin.next_line`, which is
  recomputed from the unchanged buffer on every redraw and is not part of any
  claim, so drawing is modelled as a no-op on state (for `FrameLayout` the
  fact that a child was redrawn is recorded in an explicit counter).
-/

/-! ## term_string_visible_len (src/terminus.rs lines 13-38)

The Rust function scans `string.chars()`; on `'\x1B'` it consumes the next
char, and when that char is `'['` it additionally skips parameter bytes
(0x30-0x3f), intermediate bytes (0x20-0x2f), and stops consuming at any other
char (final byte 0x40-0x7E or anything else). Every other char counts one
column. The inner skipping loop is `term_string_skip_csi` below. -/

mutual

def term_string_visible_len : List Char → Nat
  | [] => 0
  | c :: rest =>
    if c = '\x1B' then
      match rest with
      | [] => 0
      | c2 :: rest2 =>
        if c2 = '[' then term_string_skip_csi rest2
        else term_string_visible_len rest2
    else term_string_visible_len rest + 1

def term_string_skip_csi : List Char → Nat
  | [] => 0
  | c :: rest =>
    if 0x30 ≤ c.toNat ∧ c.toNat ≤ 0x3f then term_string_skip_csi rest
    else if 0x20 ≤ c.toNat ∧ c.toNat ≤ 0x2f then term_string_skip_csi rest
    else term_string_visible_len rest

end

/-- A control sequence as emitted by termion: ESC, `[`, parameter/intermediate
bytes, then a final byte. -/
def csiSeq (params : List Char) (final : Char) : List Char :=
  '\x1B' :: '[' :: (params ++ [final])

lemma term_string_skip_csi_exit (params : List Char) (final : Char)
    (t : List Char)
    (hp : ∀ c ∈ params, 0x20 ≤ c.toNat ∧ c.toNat ≤ 0x3f)
    (hf : ¬ (0x20 ≤ final.toNat ∧ final.toNat ≤ 0x3f)) :
    term_string_skip_csi (params ++ final :: t) = term_string_visible_len t := by
  induction params with
  | nil =>
    rw [List.nil_append, term_string_skip_csi.eq_def]
    have h1 : ¬ (0x30 ≤ final.toNat ∧ final.toNat ≤ 0x3f) := by
      intro h; exact hf ⟨by omega, h.2⟩
    have h2 : ¬ (0x20 ≤ final.toNat ∧ final.toNat ≤ 0x2f) := by
      intro h; exact hf ⟨h.1, by omega⟩
    simp only [if_neg h1, if_neg h2]
  | cons c cs ih =>
    have hc := hp c (List.mem_cons_self c cs)
    have ih' := ih (fun x hx => hp x (List.mem_cons_of_mem c hx))
    rw [List.cons_append, term_string_skip_csi.eq_def]
    by_cases h1 : 0x30 ≤ c.toNat ∧ c.toNat ≤ 0x3f
    · simp only [if_pos h1]; exact ih'
    · simp only [if_neg h1, if_pos (And.intro hc.1 (by omega : c.toNat ≤ 0x2f))]
      exact ih'

lemma term_string_visible_len_csi (params : List Char) (final : Char)
    (t : List Char)
    (hp : ∀ c ∈ params, 0x20 ≤ c.toNat ∧ c.toNat ≤ 0x3f)
    (hf : ¬ (0x20 ≤ final.toNat ∧ final.toNat ≤ 0x3f)) :
    term_string_visible_len (csiSeq params final ++ t) =
      term_string_visible_len t := by
  show term_string_visible_len ('\x1B' :: '[' :: (params ++ [final]) ++ t) = _
  rw [List.cons_append, List.cons_append, term_string_visible_len.eq_def]
  simp only [if_pos rfl, reduceIte, List.append_assoc, List.singleton_append]
  exact term_string_skip_csi_exit params final t hp hf

lemma term_string_visible_len_plain (s t : List Char)
    (hs : ∀ c ∈ s, c ≠ '\x1B') :
    term_string_visible_len (s ++ t) = s.length + term_string_visible_len t := by
  induction s with
  | nil => simp
  | cons c cs ih =>
    have hc := hs c (List.mem_cons_self c cs)
    rw [List.cons_append, term_string_visible_len.eq_def]
    simp only [if_neg hc, List.length_cons]
    rw [ih (fun x hx => hs x (List.mem_cons_of_mem c hx))]
    omega

/-- C6: for every string formed by wrapping escape-free visible text in two
control sequences (covering color-change followed by cursor-goto and the
reverse order), `term_string_visible_len` returns exactly the number of
non-escape-sequence characters: it skips each ESC-`[` introducer with its
parameter/intermediate bytes up to and including the final byte, and counts
every other character as one column. -/
theorem c6_visible_width (p1 p2 s : List Char) (f1 f2 : Char)
    (hp1 : ∀ c ∈ p1, 0x20 ≤ c.toNat ∧ c.toNat ≤ 0x3f)
    (hp2 : ∀ c ∈ p2, 0x20 ≤ c.toNat ∧ c.toNat ≤ 0x3f)
    (hf1 : 0x40 ≤ f1.toNat ∧ f1.toNat ≤ 0x7E)
    (hf2 : 0x40 ≤ f2.toNat ∧ f2.toNat ≤ 0x7E)
    (hs : ∀ c ∈ s, c ≠ '\x1B') :
    term_string_visible_len (csiSeq p1 f1 ++ s ++ csiSeq p2 f2) = s.length := by
  rw [List.append_assoc,
    term_string_visible_len_csi p1 f1 _ hp1 (by intro h; omega),
    term_string_visible_len_plain s _ hs]
  have : csiSeq p2 f2 = csiSeq p2 f2 ++ [] := by simp [csiSeq]
  rw [this, term_string_visible_len_csi p2 f2 [] hp2 (by intro h; omega)]
  simp [term_string_visible_len]

/-- C6 witness: the two concrete strings of the repository's own unit test,
`color::Bg(Red)` + "ab" + `cursor::Goto(1,123)` and the reverse order, both
have visible width 2. -/
theorem c6_visible_width_witness :
    term_string_visible_len
        (csiSeq ['4', '8', ';', '5', ';', '1'] 'm' ++ ['a', 'b'] ++
          csiSeq ['1', ';', '1', '2', '3'] 'H') = 2 ∧
    term_string_visible_len
        (csiSeq ['1', ';', '1', '2', '3'] 'H' ++ ['a', 'b'] ++
          csiSeq ['4', '8', ';', '5', ';', '1'] 'm') = 2 :=
  ⟨c6_visible_width ['4', '8', ';', '5', ';', '1'] ['1', ';', '1', '2', '3']
      ['a', 'b'] 'm' 'H' (by decide) (by decide) (by decide) (by decide)
      (by decide),
    c6_visible_width ['1', ';', '1', '2', '3'] ['4', '8', ';', '5', ';', '1']
      ['a', 'b'] 'H' 'm' (by decide) (by decide) (by decide) (by decide)
      (by decide)⟩

/-- C10: on seeing an escape character the scanner always consumes the single
following character without counting it, even when that character is not `[`;
in particular an escape followed by an ordinary letter has visible width 0,
not 1, and a lone trailing escape character contributes 0. -/
theorem c10_escape_consumes_next :
    (∀ (c : Char) (s : List Char), c ≠ '[' →
      term_string_visible_len ('\x1B' :: c :: s) = term_string_visible_len s) ∧
    term_string_visible_len ['\x1B', 'a'] = 0 ∧
    term_string_visible_len ['\x1B'] = 0 := by
  refine ⟨fun c s hc => ?_, by decide, by decide⟩
  rw [term_string_visible_len.eq_def]
  simp only [if_pos rfl, reduceIte, if_neg hc]

/-- C10 witness. -/
theorem c10_escape_consumes_next_witness :
    term_string_visible_len ['\x1B', 'x', 'y'] = 1 := by
  have h := c10_escape_consumes_next
  rw [h.1 'x' ['y'] (by decide)]
  decide

/-! ## BufferedWin (src/terminus.rs lines 732-816)

`BufferedWin` stores messages in `buf`, an identity map `history` from message
to insertion index, and the scroll offset `view`. `next_line` is recomputed
from the unchanged buffer by every `redraw` and only drives drawing, so it is
omitted from the state. The message type `T` carries `Display`; the lines of
`format!("{}", m)` are abstracted as a function `lines : T → List String`.
`h` stands for the measured height `self.h.unwrap()` (the source unwraps it,
so the widget must have been measured). -/

structure BufferedWin (T : Type) where
  buf : List T
  history : List (T × Nat)
  view : Nat
deriving DecidableEq

/-- The value `buffers.collect::<Vec<_>>().len()` of `page_up` / `redraw`:
the total number of display lines across all messages. -/
def totalLines {T : Type} (lines : T → List String) (buf : List T) : Nat :=
  ((buf.map lines).join).length

def recv_message {T : Type} [DecidableEq T] (w : BufferedWin T) (m : T)
    (print : Bool) : BufferedWin T :=
  if w.history.any (fun p => decide (p.1 = m)) then w
  else { w with history := w.history ++ [(m, w.buf.length)],
                buf := w.buf ++ [m] }

def page_up {T : Type} (lines : T → List String) (h : Nat)
    (w : BufferedWin T) : BufferedWin T :=
  let count := totalLines lines w.buf
  if count < h then w
  else
    let mx := count - h
    if w.view + h < mx then { w with view := w.view + h }
    else { w with view := mx }

def page_down {T : Type} (h : Nat) (w : BufferedWin T) : BufferedWin T :=
  if w.view > h then { w with view := w.view - h }
  else { w with view := 0 }

/-- A sequence of paging calls; `true` is `page_up`, `false` is `page_down`. -/
def pageSeq {T : Type} (lines : T → List String) (h : Nat)
    (w : BufferedWin T) : List Bool → BufferedWin T
  | [] => w
  | true :: ops => pageSeq lines h (page_up lines h w) ops
  | false :: ops => pageSeq lines h (page_down h w) ops

lemma page_up_buf {T : Type} (lines : T → List String) (h : Nat)
    (w : BufferedWin T) : (page_up lines h w).buf = w.buf := by
  unfold page_up
  dsimp only
  split <;> [rfl; split <;> rfl]

lemma page_down_buf {T : Type} (h : Nat) (w : BufferedWin T) :
    (page_down h w).buf = w.buf := by
  unfold page_down
  split <;> rfl

lemma page_up_view_le {T : Type} (lines : T → List String) (h : Nat)
    (w : BufferedWin T) (hv : w.view ≤ totalLines lines w.buf - h) :
    (page_up lines h w).view ≤ totalLines lines w.buf - h := by
  unfold page_up
  dsimp only
  split
  · exact hv
  · split <;> simp <;> omega

lemma page_down_view_le {T : Type} (lines : T → List String) (h : Nat)
    (w : BufferedWin T) (hv : w.view ≤ totalLines lines w.buf - h) :
    (page_down h w).view ≤ totalLines lines w.buf - h := by
  unfold page_down
  split <;> simp <;> omega

lemma pageSeq_invariant {T : Type} (lines : T → List String) (h : Nat)
    (w : BufferedWin T) (ops : List Bool)
    (hv : w.view ≤ totalLines lines w.buf - h) :
    (pageSeq lines h w ops).view ≤
      totalLines lines (pageSeq lines h w ops).buf - h ∧
    (pageSeq lines h w ops).buf = w.buf := by
  induction ops generalizing w with
  | nil => exact ⟨hv, rfl⟩
  | cons op ops ih =>
    cases op with
    | true =>
      have h1 := page_up_view_le lines h w hv
      have h2 := page_up_buf lines h w
      have h3 := ih (page_up lines h w) (by rw [h2]; exact h1)
      exact ⟨h3.1, by rw [pageSeq, h3.2, h2]⟩
    | false =>
      have h1 := page_down_view_le lines h w hv
      have h2 := page_down_buf h w
      have h3 := ih (page_down h w) (by rw [h2]; exact h1)
      exact ⟨h3.1, by rw [pageSeq, h3.2, h2]⟩

/-- C3: starting from the freshly created widget state (offset 0) over a
buffer with `N` total display lines and measured height `h` with `N > h`,
any sequence of `page_up` / `page_down` calls leaves the offset between 0 and
`N − h`; and on a widget whose total line count is less than its height,
`page_up` is a no-op. -/
theorem c3_pagination_clamp {T : Type} (lines : T → List String)
    (buf : List T) (h : Nat) (ops : List Bool)
    (hNh : h < totalLines lines buf)
    (w' : BufferedWin T) (hw' : totalLines lines w'.buf < h) :
    (0 ≤ (pageSeq lines h ⟨buf, [], 0⟩ ops).view ∧
      (pageSeq lines h ⟨buf, [], 0⟩ ops).view ≤ totalLines lines buf - h) ∧
    page_up lines h w' = w' := by
  constructor
  · have h1 := pageSeq_invariant lines h ⟨buf, [], 0⟩ ops (by simp)
    have h2 : (pageSeq lines h ⟨buf, [], 0⟩ ops).buf = buf := h1.2
    refine ⟨Nat.zero_le _, ?_⟩
    have h3 := h1.1
    rw [h2] at h3
    exact h3
  · unfold page_up
    rw [if_pos hw']

/-- C3 witness: one message of three display lines, height 1, paging
up twice then down once keeps the offset within `[0, 2]`; a widget with no
lines and height 1 ignores `page_up`. -/
theorem c3_pagination_clamp_witness :
    ((0 ≤ (pageSeq (fun n => List.replicate n "") 1 ⟨[3], [], 0⟩
          [true, true, false]).view ∧
      (pageSeq (fun n => List.replicate n "") 1 ⟨[3], [], 0⟩
          [true, true, false]).view ≤
        totalLines (fun n => List.replicate n "") [3] - 1) ∧
    page_up (fun n => List.replicate n "") 1 ⟨([] : List Nat), [], 0⟩ =
      ⟨[], [], 0⟩) :=
  c3_pagination_clamp (fun n => List.replicate n "") [3] 1 [true, true, false]
    (by decide) ⟨[], [], 0⟩ (by decide)

/-- C4: `recv_message` deduplicates through the identity map: a second call
with an equal message is a no-op on the whole stored state, so the buffer
contents, the identity mapping and the total display line count are the same
as after a single call. -/
theorem c4_dedup_idempotent {T : Type} [DecidableEq T]
    (lines : T → List String) (w : BufferedWin T) (m : T) (p p' : Bool) :
    recv_message (recv_message w m p) m p' = recv_message w m p ∧
    totalLines lines (recv_message (recv_message w m p) m p').buf =
      totalLines lines (recv_message w m p).buf := by
  have key : recv_message (recv_message w m p) m p' = recv_message w m p := by
    by_cases hmem : w.history.any (fun q => decide (q.1 = m)) = true
    · simp [recv_message, hmem]
    · simp [recv_message, hmem, List.any_append]
  exact ⟨key, by rw [key]⟩

/-! ## FrameLayout (src/terminus.rs lines 180-268)

A `FrameLayout` holds children keyed by `K` and an optional current key.
Children are trait objects; a child is abstracted by the two observations the
claims use: its dirty flag (`is_dirty`) and how many times it has been
redrawn. `current` (lines 219-222) sets `content.current` and calls
`self.redraw()`; `redraw` (lines 254-259) redraws only the current child via
`children.get_mut(current).unwrap()` (the `unwrap` panics when the key is
absent, modelled by `none`); `is_dirty` (lines 261-267) ORs the children's
dirty flags and reads nothing else. No redraw implementation in the module
writes any dirty flag, so a child redraw only bumps its redraw counter. -/

structure FChild where
  dirty : Bool
  redraws : Nat
deriving DecidableEq

structure FrameLayout (K : Type) where
  children : List (K × FChild)
  current : Option K
deriving DecidableEq

def frameRedraw {K : Type} [DecidableEq K] (fl : FrameLayout K) :
    Option (FrameLayout K) :=
  match fl.current with
  | none => some fl
  | some k =>
    if fl.children.any (fun p => decide (p.1 = k)) then
      some { fl with children := fl.children.map (fun p =>
        if p.1 = k then (p.1, { p.2 with redraws := p.2.redraws + 1 }) else p) }
    else none

def frameCurrent {K : Type} [DecidableEq K] (fl : FrameLayout K) (k : K) :
    Option (FrameLayout K) :=
  frameRedraw { fl with current := some k }

def frameIsDirty {K : Type} (fl : FrameLayout K) : Bool :=
  fl.children.any (fun p => p.2.dirty)

/-- C9 counterexample: a `FrameLayout` with a single clean child keyed `0`
(so the selected key is in the key set). After `current 0` the layout is not
dirty — `current` never sets a dirty flag and `is_dirty` only ORs the
children's flags — refuting the claim that `is_dirty` returns true
afterwards. -/
theorem c9_counterexample :
    ¬ ((frameCurrent (⟨[(0, ⟨false, 0⟩)], none⟩ : FrameLayout Nat) 0).map
        frameIsDirty = some true) := by
  decide

lemma frame_update_find {K : Type} [DecidableEq K] (k : K)
    (l : List (K × FChild)) (p : K × FChild)
    (hf : l.find? (fun q => decide (q.1 = k)) = some p) :
    (l.map (fun q => if q.1 = k then (q.1, { q.2 with redraws := q.2.redraws + 1 })
        else q)).find? (fun q => decide (q.1 = k)) =
      some (p.1, { p.2 with redraws := p.2.redraws + 1 }) := by
  induction l with
  | nil => simp at hf
  | cons a l ih =>
    by_cases ha : a.1 = k
    · rw [List.find?_cons_of_pos _ (by simpa using ha)] at hf
      cases hf
      simp only [List.map_cons, if_pos ha]
      rw [List.find?_cons_of_pos _ (by simpa using ha)]
    · rw [List.find?_cons_of_neg _ (by simpa using ha)] at hf
      simp only [List.map_cons, if_neg ha]
      rw [List.find?_cons_of_neg _ (by simpa using ha)]
      exact ih hf

lemma frame_update_dirty {K : Type} [DecidableEq K] (k : K)
    (l : List (K × FChild)) :
    (l.map (fun q => if q.1 = k then (q.1, { q.2 with redraws := q.2.redraws + 1 })
        else q)).any (fun p => p.2.dirty) = l.any (fun p => p.2.dirty) := by
  induction l with
  | nil => rfl
  | cons a l ih =>
    by_cases ha : a.1 = k
    · simp only [List.map_cons, if_pos ha, List.any_cons, ih]
    · simp only [List.map_cons, if_neg ha, List.any_cons, ih]

/-- C9 amended: for a `FrameLayout` whose key set contains the selected key,
`current` succeeds, sets the current key, and triggers a redraw of the newly
selected child (its redraw count increments); the dirty state is unchanged —
`is_dirty` afterwards equals `is_dirty` before, reflecting only the
children's own dirty flags, and in particular need not be true. -/
theorem c9_amended {K : Type} [DecidableEq K] (fl : FrameLayout K) (k : K)
    (p : K × FChild)
    (hf : fl.children.find? (fun q => decide (q.1 = k)) = some p) :
    ∃ fl', frameCurrent fl k = some fl' ∧
      fl'.current = some k ∧
      fl'.children.find? (fun q => decide (q.1 = k)) =
        some (p.1, { p.2 with redraws := p.2.redraws + 1 }) ∧
      frameIsDirty fl' = frameIsDirty fl := by
  have hmem : fl.children.any (fun q => decide (q.1 = k)) = true := by
    rcases List.find?_some hf with hp
    have := List.mem_of_find?_eq_some hf
    exact List.any_eq_true.mpr ⟨p, this, hp⟩
  refine ⟨⟨fl.children.map (fun q => if q.1 = k then
      (q.1, { q.2 with redraws := q.2.redraws + 1 }) else q), some k⟩,
    ?_, rfl, ?_, ?_⟩
  · unfold frameCurrent frameRedraw
    simp only [hmem, if_true]
  · exact frame_update_find k fl.children p hf
  · exact frame_update_dirty k fl.children

/-- C9 amended witness: a layout with one clean child keyed `7`; selecting `7`
bumps that child's redraw count and leaves the layout clean. -/
theorem c9_amended_witness :
    ∃ fl', frameCurrent (⟨[(7, ⟨false, 3⟩)], none⟩ : FrameLayout Nat) 7 =
        some fl' ∧
      fl'.current = some 7 ∧
      fl'.children.find? (fun q => decide (q.1 = 7)) = some (7, ⟨false, 4⟩) ∧
      frameIsDirty fl' =
        frameIsDirty (⟨[(7, ⟨false, 3⟩)], none⟩ : FrameLayout Nat) :=
  c9_amended (⟨[(7, ⟨false, 3⟩)], none⟩ : FrameLayout Nat) 7 (7, ⟨false, 3⟩)
    (by decide)

/-! ## Input (src/terminus.rs lines 467-706)

`Input.buf` is a Rust `String`, i.e. UTF-8 bytes, embedded as `List Nat`;
`cursor` counts code points (the source comments: "Used to index code points
in buf (don't use it to directly index buf)"). `byte_index` is the scanning
loop of lines 478-487; its `while` loop is embedded with explicit fuel
`buf.length + 1` (enough for every terminating run, since the loop stops at
the latest when `byte_index` passes the end of the buffer; `none` models the
diverging runs where `cursor` exceeds the number of code points).
`is_char_boundary` is `str::is_char_boundary` of the standard library:
true at 0, at the total byte length, and at any non-continuation byte. -/

def is_char_boundary (buf : List Nat) (i : Nat) : Bool :=
  if i = 0 then true
  else
    match buf.get? i with
    | none => decide (i = buf.length)
    | some b => decide (b < 0x80 ∨ 0xC0 ≤ b)

def byteIndexAux (buf : List Nat) : Nat → Nat → Nat → Option Nat
  | 0, bi, cursor => if cursor = 0 then some bi else none
  | fuel + 1, bi, cursor =>
    if cursor = 0 then some bi
    else
      byteIndexAux buf fuel (bi + 1)
        (if is_char_boundary buf (bi + 1) then cursor - 1 else cursor)

def byte_index (buf : List Nat) (cursor : Nat) : Option Nat :=
  byteIndexAux buf (buf.length + 1) 0 cursor

/-- UTF-8 encoding of one unicode scalar value, as `String::insert` stores
it. -/
def utf8Encode (c : Char) : List Nat :=
  let n := c.toNat
  if n < 0x80 then [n]
  else if n < 0x800 then [0xC0 + n / 0x40, 0x80 + n % 0x40]
  else if n < 0x10000 then
    [0xE0 + n / 0x1000, 0x80 + n / 0x40 % 0x40, 0x80 + n % 0x40]
  else
    [0xF0 + n / 0x40000, 0x80 + n / 0x1000 % 0x40, 0x80 + n / 0x40 % 0x40,
      0x80 + n % 0x40]

/-- The UTF-8 byte string of a sequence of code points. -/
def utf8Str : List Char → List Nat
  | [] => []
  | c :: cs => utf8Encode c ++ utf8Str cs

/-- Number of bytes `String::remove` takes off at a lead byte. -/
def utf8LenFromLead (b : Nat) : Nat :=
  if b < 0x80 then 1
  else if b < 0xE0 then 2
  else if b < 0xF0 then 3
  else 4

structure Input where
  buf : List Nat
  tmp_buf : Option (List Nat)
  password : Bool
  history : List (List Nat)
  history_index : Nat
  cursor : Nat
deriving DecidableEq

def Input.byte_index_at (i : Input) (cursor : Nat) : Option Nat :=
  byte_index i.buf cursor

/-- `key` (lines 524-531): insert the char at the cursor's byte index;
`String::insert` panics off a char boundary (modelled `none`). -/
def Input.key (i : Input) (c : Char) : Option Input :=
  match byte_index i.buf i.cursor with
  | none => none
  | some bi =>
    if is_char_boundary i.buf bi then
      some { i with buf := i.buf.take bi ++ utf8Encode c ++ i.buf.drop bi,
                    cursor := i.cursor + 1 }
    else none

/-- `delete` (lines 604-611): the source calls `buf.remove(cursor)` with the
code-point cursor used directly as a byte position; `String::remove` panics
when that position is not a char boundary (modelled `none`), and otherwise
removes the whole code point starting there. -/
def Input.delete (i : Input) : Option Input :=
  if i.cursor < i.buf.length then
    match i.buf.get? i.cursor with
    | none => none
    | some b =>
      if is_char_boundary i.buf i.cursor then
        let rest := i.buf.drop (i.cursor + utf8LenFromLead b)
        some { i with buf := i.buf.take i.cursor ++ rest }
      else none
  else some i

/-- The state part of `clear` (lines 627-638); the rest of `clear` writes
blanks to the screen. -/
def Input.clearState (i : Input) : Input :=
  { i with buf := [], cursor := 0, tmp_buf := none, password := false }

/-- `validate` (lines 665-674). -/
def Input.validate (i : Input) : (List Nat × Bool) × Input :=
  let i1 := if i.password then i
    else { i with history := i.history ++ [i.buf],
                  history_index := i.history.length + 1 }
  ((i1.buf, i1.password), i1.clearState)

/-- `previous` (lines 676-689); the history indexing panic is `none`. -/
def Input.previous (i : Input) : Option Input :=
  if i.history_index = 0 then some i
  else
    let i' := if i.tmp_buf.isNone then { i with tmp_buf := some i.buf } else i
    match i'.history.get? (i'.history_index - 1) with
    | none => none
    | some b => some { i' with history_index := i'.history_index - 1,
                               buf := b, cursor := b.length }

/-- `next` (lines 691-705); `tmp_buf.take().unwrap()` on an empty scratch
slot is a panic, `none`. -/
def Input.next (i : Input) : Option Input :=
  if i.history_index = i.history.length then some i
  else
    let idx := i.history_index + 1
    if idx = i.history.length then
      match i.tmp_buf with
      | none => none
      | some b => some { i with history_index := idx, buf := b,
                                tmp_buf := none, cursor := b.length }
    else
      match i.history.get? idx with
      | none => none
      | some b => some { i with history_index := idx, buf := b,
                                cursor := b.length }

/-- The content of `Input::new` (lines 505-512). -/
def initInput : Input := ⟨[], none, false, [], 0, 0⟩

/-- Typing a sequence of characters with `key`. -/
def typeChars : Input → List Char → Option Input
  | i, [] => some i
  | i, c :: cs =>
    match i.key c with
    | none => none
    | some i' => typeChars i' cs

/-! ### UTF-8 facts used to reason about byte_index -/

lemma utf8Encode_spec (c : Char) :
    ∃ b bs, utf8Encode c = b :: bs ∧ (b < 0x80 ∨ 0xC0 ≤ b) ∧
      ∀ x ∈ bs, 0x80 ≤ x ∧ x < 0xC0 := by
  unfold utf8Encode
  dsimp only
  split_ifs with h1 h2 h3
  · exact ⟨_, _, rfl, Or.inl h1, by simp⟩
  · refine ⟨_, _, rfl, Or.inr (by omega), ?_⟩
    intro x hx
    simp only [List.mem_singleton] at hx
    subst hx
    omega
  · refine ⟨_, _, rfl, Or.inr (by omega), ?_⟩
    intro x hx
    simp only [List.mem_cons, List.not_mem_nil, or_false] at hx
    rcases hx with h | h <;> omega
  · refine ⟨_, _, rfl, Or.inr (by omega), ?_⟩
    intro x hx
    simp only [List.mem_cons, List.not_mem_nil, or_false] at hx
    rcases hx with h | h | h <;> omega

lemma utf8Encode_length_pos (c : Char) : 0 < (utf8Encode c).length := by
  obtain ⟨b, bs, he, -, -⟩ := utf8Encode_spec c
  rw [he]
  simp

lemma utf8Str_append (a b : List Char) :
    utf8Str (a ++ b) = utf8Str a ++ utf8Str b := by
  induction a with
  | nil => rfl
  | cons c cs ih => simp [utf8Str, ih]

lemma is_char_boundary_zero (buf : List Nat) :
    is_char_boundary buf 0 = true := rfl

lemma is_char_boundary_length (buf : List Nat) :
    is_char_boundary buf buf.length = true := by
  unfold is_char_boundary
  by_cases h0 : buf.length = 0
  · rw [if_pos h0]
  · rw [if_neg h0, List.get?_eq_none.mpr (le_refl _)]
    simp

lemma is_char_boundary_shift (pre : List Nat) (cs : List Char) (i : Nat)
    (hi : pre.length ≤ i) :
    is_char_boundary (pre ++ utf8Str cs) i =
      is_char_boundary (utf8Str cs) (i - pre.length) := by
  rcases Nat.lt_or_ge pre.length i with hlt | hge
  · unfold is_char_boundary
    rw [if_neg (by omega : ¬ i = 0), if_neg (by omega : ¬ i - pre.length = 0),
      List.get?_append_right hi]
    cases hg : (utf8Str cs).get? (i - pre.length) with
    | none =>
      simp only [List.length_append]
      exact decide_eq_decide.mpr (by omega)
    | some b => rfl
  · have hi' : i = pre.length := by omega
    subst hi'
    rw [Nat.sub_self, is_char_boundary_zero]
    unfold is_char_boundary
    by_cases h0 : pre.length = 0
    · rw [if_pos h0]
    · rw [if_neg h0, List.get?_append_right (le_refl _), Nat.sub_self]
      cases cs with
      | nil =>
        show (decide (pre.length = (pre ++ utf8Str []).length)) = true
        simp [utf8Str]
      | cons c cs' =>
        obtain ⟨b, bs, he, hlead, -⟩ := utf8Encode_spec c
        show (match (utf8Str (c :: cs')).get? 0 with
          | none => decide (pre.length = (pre ++ utf8Str (c :: cs')).length)
          | some b => decide (b < 0x80 ∨ 0xC0 ≤ b)) = true
        have : utf8Str (c :: cs') = b :: (bs ++ utf8Str cs') := by
          show utf8Encode c ++ utf8Str cs' = _
          rw [he]
          rfl
        rw [this]
        simpa using hlead

lemma is_char_boundary_inside (c : Char) (cs : List Char) (j : Nat)
    (h1 : 0 < j) (h2 : j < (utf8Encode c).length) :
    is_char_boundary (utf8Str (c :: cs)) j = false := by
  obtain ⟨b, bs, he, -, hcont⟩ := utf8Encode_spec c
  obtain ⟨j', rfl⟩ : ∃ j', j = j' + 1 := ⟨j - 1, by omega⟩
  have hlen : j' < bs.length := by
    rw [he] at h2
    simpa using h2
  obtain ⟨x, hx⟩ : ∃ x, bs.get? j' = some x :=
    ⟨bs.get ⟨j', hlen⟩, List.get?_eq_get hlen⟩
  have hxm : x ∈ bs := by
    have := List.get?_mem hx
    exact this
  have hxb := hcont x hxm
  unfold is_char_boundary
  rw [if_neg (by omega : ¬ j' + 1 = 0)]
  have hget : (utf8Str (c :: cs)).get? (j' + 1) = some x := by
    show (utf8Encode c ++ utf8Str cs).get? (j' + 1) = some x
    rw [he]
    show ((b :: bs) ++ utf8Str cs).get? (j' + 1) = some x
    rw [List.cons_append, List.get?_cons_succ, List.get?_append hlen]
    exact hx
  rw [hget]
  simp only [decide_eq_false_iff_not]
  omega

/-! ### The byte_index scanning loop -/

lemma byteIndexAux_cursor_zero (buf : List Nat) (fuel bi : Nat) :
    byteIndexAux buf fuel bi 0 = some bi := by
  cases fuel <;> rfl

lemma byteIndexAux_steps (buf : List Nat) :
    ∀ (s : Nat), 0 < s → ∀ (bi fuel cursor : Nat), s ≤ fuel →
    (∀ j, 0 < j → j < s → is_char_boundary buf (bi + j) = false) →
    is_char_boundary buf (bi + s) = true →
    byteIndexAux buf fuel bi (cursor + 1) =
      byteIndexAux buf (fuel - s) (bi + s) cursor := by
  intro s
  induction s with
  | zero => omega
  | succ s ih =>
    intro _ bi fuel cursor hf hin hb
    obtain ⟨f, rfl⟩ : ∃ f, fuel = f + 1 := ⟨fuel - 1, by omega⟩
    rw [byteIndexAux, if_neg (by omega : ¬ cursor + 1 = 0)]
    by_cases hs0 : s = 0
    · subst hs0
      rw [hb]
      simp only [if_true, Nat.add_sub_cancel]
    · have hs : 0 < s := Nat.pos_of_ne_zero hs0
      have h1 : is_char_boundary buf (bi + 1) = false :=
        hin 1 Nat.one_pos (by omega)
      rw [h1]
      simp only [Bool.false_eq_true, if_false]
      have hrec := ih hs (bi + 1) f cursor (by omega)
        (fun j hj1 hj2 => by
          have := hin (j + 1) (by omega) (by omega)
          rwa [show bi + 1 + j = bi + (j + 1) by omega])
        (by rw [show bi + 1 + s = bi + (s + 1) by omega]; exact hb)
      rw [hrec]
      congr 1 <;> omega

lemma utf8_take_succ (cs : List Char) (n : Nat) (c : Char)
    (hc : cs.get? n = some c) :
    utf8Str (cs.take (n + 1)) = utf8Str (cs.take n) ++ utf8Encode c := by
  rw [List.take_succ, ← List.get?_eq_getElem?, hc, utf8Str_append]
  simp [utf8Str]

lemma utf8_take_mono (cs : List Char) {m n : Nat} (h : m ≤ n) :
    (utf8Str (cs.take m)).length ≤ (utf8Str (cs.take n)).length := by
  have hdec : cs.take n = cs.take m ++ (cs.take n).drop m := by
    conv_lhs => rw [← List.take_append_drop m (cs.take n)]
    rw [List.take_take, Nat.min_eq_left h]
  rw [hdec, utf8Str_append, List.length_append]
  omega

lemma drop_cons_of_get? (cs : List Char) (n : Nat) (c : Char)
    (hc : cs.get? n = some c) :
    cs.drop n = c :: cs.drop (n + 1) := by
  have hn : n < cs.length := List.get?_eq_some.mp hc |>.1
  rw [List.drop_eq_get_cons hn]
  have := List.get?_eq_get hn
  rw [hc] at this
  rw [Option.some_inj.mp this.symm]

lemma byteIndexAux_run (cs : List Char) :
    ∀ (k n fuel : Nat), n + k ≤ cs.length →
    (utf8Str (cs.take (n + k))).length - (utf8Str (cs.take n)).length ≤ fuel →
    byteIndexAux (utf8Str cs) fuel ((utf8Str (cs.take n)).length) k =
      some ((utf8Str (cs.take (n + k))).length) := by
  intro k
  induction k with
  | zero =>
    intro n fuel h1 h2
    rw [Nat.add_zero, byteIndexAux_cursor_zero]
  | succ k ih =>
    intro n fuel h1 h2
    have hn : n < cs.length := by omega
    obtain ⟨c, hc⟩ : ∃ c, cs.get? n = some c := by
      cases hg : cs.get? n with
      | none =>
        exfalso
        have := List.get?_eq_none.mp hg
        omega
      | some c => exact ⟨c, rfl⟩
    have hsucc := utf8_take_succ cs n c hc
    have hs := utf8Encode_length_pos c
    have hdecomp : utf8Str cs = utf8Str (cs.take n) ++ utf8Str (cs.drop n) := by
      rw [← utf8Str_append, List.take_append_drop]
    have hdrop : cs.drop n = c :: cs.drop (n + 1) := drop_cons_of_get? cs n c hc
    have hbound : ∀ j, 0 < j → j < (utf8Encode c).length →
        is_char_boundary (utf8Str cs)
          ((utf8Str (cs.take n)).length + j) = false := by
      intro j hj1 hj2
      rw [hdecomp, is_char_boundary_shift _ _ _ (by omega),
        Nat.add_sub_cancel_left, hdrop]
      exact is_char_boundary_inside c _ j hj1 hj2
    have hbs : is_char_boundary (utf8Str cs)
        ((utf8Str (cs.take n)).length + (utf8Encode c).length) = true := by
      rw [hdecomp, is_char_boundary_shift _ _ _ (by omega),
        Nat.add_sub_cancel_left, hdrop]
      show is_char_boundary (utf8Encode c ++ utf8Str (cs.drop (n + 1)))
        (utf8Encode c).length = true
      rw [is_char_boundary_shift (utf8Encode c) _ _ (le_refl _), Nat.sub_self]
      exact is_char_boundary_zero _
    have e1 : (utf8Str (cs.take (n + 1))).length =
        (utf8Str (cs.take n)).length + (utf8Encode c).length := by
      rw [hsucc, List.length_append]
    have hmono : (utf8Str (cs.take (n + 1))).length ≤
        (utf8Str (cs.take (n + (k + 1)))).length :=
      utf8_take_mono cs (by omega)
    rw [byteIndexAux_steps (utf8Str cs) (utf8Encode c).length hs
      ((utf8Str (cs.take n)).length) fuel k (by omega) hbound hbs]
    have e2 : n + (k + 1) = (n + 1) + k := by omega
    rw [e2] at h2 ⊢
    rw [← e1]
    exact ih (n + 1) (fuel - (utf8Encode c).length) (by omega) (by omega)

/-- On a valid UTF-8 buffer, `byte_index` maps the code-point position `n`
to the byte length of the first `n` characters. -/
theorem byte_index_utf8 (cs : List Char) (n : Nat) (hn : n ≤ cs.length) :
    byte_index (utf8Str cs) n = some ((utf8Str (cs.take n)).length) := by
  unfold byte_index
  have hfuel : (utf8Str (cs.take n)).length ≤ (utf8Str cs).length := by
    have := utf8_take_mono cs hn
    rwa [List.take_length] at this
  have := byteIndexAux_run cs n 0 ((utf8Str cs).length + 1) (by omega)
    (by simp [utf8Str]; omega)
  simpa [utf8Str] using this

/-- C7: for every buffer (a valid UTF-8 string, given as its code points),
`byte_index 0 = 0`, and stepping from code-point position `n` to `n + 1`
advances the byte index by exactly the encoded byte length of the character
at position `n` — more than 1 for a multi-byte character. -/
theorem c7_byte_index_unicode (cs : List Char) (n : Nat) (hn : n < cs.length) :
    byte_index (utf8Str cs) 0 = some 0 ∧
    byte_index (utf8Str cs) (n + 1) =
      (byte_index (utf8Str cs) n).map
        (fun b => b + (utf8Encode (cs.get ⟨n, hn⟩)).length) := by
  constructor
  · have := byte_index_utf8 cs 0 (Nat.zero_le _)
    simpa [utf8Str] using this
  · rw [byte_index_utf8 cs n (by omega), byte_index_utf8 cs (n + 1) (by omega)]
    simp only [Option.map_some']
    congr 1
    rw [utf8_take_succ cs n _ (List.get?_eq_get hn), List.length_append]

/-- C7 witness: on the repository's own test buffer "aça", whose middle
character takes two bytes, `byte_index 0 = 0` and `byte_index 2` is
`byte_index 1` plus that character's 2-byte length (1 then 3). -/
theorem c7_byte_index_unicode_witness :
    byte_index (utf8Str ['a', 'ç', 'a']) 0 = some 0 ∧
    byte_index (utf8Str ['a', 'ç', 'a']) 2 =
      (byte_index (utf8Str ['a', 'ç', 'a']) 1).map
        (fun b => b + (utf8Encode (['a', 'ç', 'a'].get ⟨1, by decide⟩)).length) :=
  c7_byte_index_unicode ['a', 'ç', 'a'] 1 (by decide)

/-- C8 evidence: `delete` uses the code-point cursor directly as a byte
position. On buffer "éa" with the cursor at code point 1 (before 'a',
strictly before the end) byte 1 is inside the two-byte 'é', so
`String::remove(1)` panics instead of removing 'a'; and on buffer "é" with
the cursor at the end (code point 1) the byte-length guard `1 < 2` still
lets the call through and it panics as well, instead of leaving the buffer
unchanged. -/
theorem c8_delete_multibyte_panics :
    Input.delete ⟨utf8Str ['é', 'a'], none, false, [], 0, 1⟩ = none ∧
    Input.delete ⟨utf8Str ['é'], none, false, [], 0, 1⟩ = none := by
  decide

/-! ### Input history round trip (C5) -/

lemma typeChars_from_end (ds : List Char) :
    ∀ (cs : List Char) (tmp : Option (List Nat)) (pw : Bool)
      (hist : List (List Nat)) (hidx : Nat),
    typeChars ⟨utf8Str cs, tmp, pw, hist, hidx, cs.length⟩ ds =
      some ⟨utf8Str (cs ++ ds), tmp, pw, hist, hidx, (cs ++ ds).length⟩ := by
  induction ds with
  | nil =>
    intro cs tmp pw hist hidx
    rw [typeChars, List.append_nil]
  | cons d ds ih =>
    intro cs tmp pw hist hidx
    rw [typeChars]
    have hbi : byte_index (utf8Str cs) cs.length = some ((utf8Str cs).length) := by
      have := byte_index_utf8 cs cs.length (le_refl _)
      rwa [List.take_length] at this
    unfold Input.key
    simp only [hbi, is_char_boundary_length, if_true]
    have hbuf : (utf8Str cs).take (utf8Str cs).length ++ utf8Encode d ++
        (utf8Str cs).drop (utf8Str cs).length = utf8Str (cs ++ [d]) := by
      rw [List.take_length, List.drop_length, List.append_nil, utf8Str_append]
      simp [utf8Str]
    have hcur : cs.length + 1 = (cs ++ [d]).length := by
      simp
    rw [hbuf, hcur, ih (cs ++ [d]) tmp pw hist hidx]
    simp

lemma typeChars_from_empty (ds : List Char) (tmp : Option (List Nat))
    (pw : Bool) (hist : List (List Nat)) (hidx : Nat) :
    typeChars ⟨[], tmp, pw, hist, hidx, 0⟩ ds =
      some ⟨utf8Str ds, tmp, pw, hist, hidx, ds.length⟩ := by
  have h := typeChars_from_end ds [] tmp pw hist hidx
  rw [List.nil_append] at h
  exact h

/-- The scenario of C5: submit "hello", submit "world", type an uncommitted
scratch buffer, then `previous` twice and `next` twice. -/
def c5Run (scratch : List Char) : Option Input :=
  (typeChars initInput ['h', 'e', 'l', 'l', 'o']).bind fun i1 =>
    (typeChars (Input.validate i1).2 ['w', 'o', 'r', 'l', 'd']).bind fun i3 =>
      (typeChars (Input.validate i3).2 scratch).bind fun i5 =>
        (Input.previous i5).bind fun i6 =>
          (Input.previous i6).bind fun i7 =>
            (Input.next i7).bind Input.next

/-- C5: after submitting "hello" and "world" through `validate` and typing
any uncommitted scratch content, `previous`-`previous`-`next`-`next`
restores the buffer to exactly that scratch content and clears the scratch
slot (`tmp_buf` is `none`). -/
theorem c5_history_roundtrip (scratch : List Char) :
    (c5Run scratch).map (fun i => (i.buf, i.tmp_buf)) =
      some (utf8Str scratch, none) := by
  unfold c5Run initInput
  rw [typeChars_from_empty]
  simp only [Option.some_bind]
  rw [show (Input.validate ⟨utf8Str ['h', 'e', 'l', 'l', 'o'], none, false, [],
      0, (['h', 'e', 'l', 'l', 'o'] : List Char).length⟩).2 =
    ⟨[], none, false, [utf8Str ['h', 'e', 'l', 'l', 'o']], 1, 0⟩ from rfl]
  rw [typeChars_from_empty]
  simp only [Option.some_bind]
  rw [show (Input.validate ⟨utf8Str ['w', 'o', 'r', 'l', 'd'], none, false,
      [utf8Str ['h', 'e', 'l', 'l', 'o']], 1,
      (['w', 'o', 'r', 'l', 'd'] : List Char).length⟩).2 =
    ⟨[], none, false, [utf8Str ['h', 'e', 'l', 'l', 'o'],
      utf8Str ['w', 'o', 'r', 'l', 'd']], 2, 0⟩ from rfl]
  rw [typeChars_from_empty]
  simp only [Option.some_bind]
  rw [show Input.previous ⟨utf8Str scratch, none, false,
      [utf8Str ['h', 'e', 'l', 'l', 'o'], utf8Str ['w', 'o', 'r', 'l', 'd']],
      2, scratch.length⟩ =
    some ⟨utf8Str ['w', 'o', 'r', 'l', 'd'], some (utf8Str scratch), false,
      [utf8Str ['h', 'e', 'l', 'l', 'o'], utf8Str ['w', 'o', 'r', 'l', 'd']],
      1, (utf8Str ['w', 'o', 'r', 'l', 'd']).length⟩ from rfl]
  simp only [Option.some_bind]
  rw [show Input.previous ⟨utf8Str ['w', 'o', 'r', 'l', 'd'],
      some (utf8Str scratch), false, [utf8Str ['h', 'e', 'l', 'l', 'o'],
      utf8Str ['w', 'o', 'r', 'l', 'd']], 1,
      (utf8Str ['w', 'o', 'r', 'l', 'd']).length⟩ =
    some ⟨utf8Str ['h', 'e', 'l', 'l', 'o'], some (utf8Str scratch), false,
      [utf8Str ['h', 'e', 'l', 'l', 'o'], utf8Str ['w', 'o', 'r', 'l', 'd']],
      0, (utf8Str ['h', 'e', 'l', 'l', 'o']).length⟩ from rfl]
  simp only [Option.some_bind]
  rw [show Input.next ⟨utf8Str ['h', 'e', 'l', 'l', 'o'],
      some (utf8Str scratch), false, [utf8Str ['h', 'e', 'l', 'l', 'o'],
      utf8Str ['w', 'o', 'r', 'l', 'd']], 0,
      (utf8Str ['h', 'e', 'l', 'l', 'o']).length⟩ =
    some ⟨utf8Str ['w', 'o', 'r', 'l', 'd'], some (utf8Str scratch), false,
      [utf8Str ['h', 'e', 'l', 'l', 'o'], utf8Str ['w', 'o', 'r', 'l', 'd']],
      1, (utf8Str ['w', 'o', 'r', 'l', 'd']).length⟩ from rfl]
  simp only [Option.some_bind]
  rw [show Input.next ⟨utf8Str ['w', 'o', 'r', 'l', 'd'],
      some (utf8Str scratch), false, [utf8Str ['h', 'e', 'l', 'l', 'o'],
      utf8Str ['w', 'o', 'r', 'l', 'd']], 1,
      (utf8Str ['w', 'o', 'r', 'l', 'd']).length⟩ =
    some ⟨utf8Str scratch, none, false, [utf8Str ['h', 'e', 'l', 'l', 'o'],
      utf8Str ['w', 'o', 'r', 'l', 'd']], 2,
      (utf8Str scratch).length⟩ from rfl]
  rfl

/-! ## LinearLayout measure (src/terminus.rs lines 270-433)

`LinearLayout::measure` works on trait-object children; here the children
are leaf views following the default `View::measure` (lines 129-151):
`Absolute` answers `min(own, spec)`, `MatchParent` answers the spec
unchanged, `WrapContent` hits `unreachable!()` (modelled `none`). All
arithmetic is `u16`: additions that reach 2^16, subtractions that underflow
and divisions by zero panic in debug builds and are modelled by `none`
(`add16`, `sub16`, `divSplit`); `divSplit` also performs the `count as u16`
truncation of the unsized-children count. -/

def add16 (a b : Nat) : Option Nat :=
  if a + b < 65536 then some (a + b) else none

def sub16 (a b : Nat) : Option Nat :=
  if b ≤ a then some (a - b) else none

inductive Dimension where
  | MatchParent
  | WrapContent
  | Absolute (v : Nat)
deriving DecidableEq

inductive Orientation' where
  | Vertical
  | Horizontal
deriving DecidableEq

structure LeafView where
  width : Dimension
  height : Dimension
  w : Option Nat
  h : Option Nat
deriving DecidableEq

/-- The layout's own bound (lines 328-348): `Absolute` clamps the spec,
the other two pass it through. -/
def dimSpec (d : Dimension) (spec : Option Nat) : Option Nat :=
  match d with
  | .MatchParent => spec
  | .WrapContent => spec
  | .Absolute v =>
    match spec with
    | some s => some (min v s)
    | none => some v

/-- One axis of the default `View::measure`. -/
def leafDim (d : Dimension) (spec : Option Nat) : Option (Option Nat) :=
  match d with
  | .MatchParent => some spec
  | .WrapContent => none
  | .Absolute v =>
    match spec with
    | some s => some (some (min v s))
    | none => some (some v)

def leafMeasure (c : LeafView) (ws hs : Option Nat) : Option LeafView :=
  match leafDim c.width ws, leafDim c.height hs with
  | some w, some h => some { c with w := w, h := h }
  | _, _ => none

/-- The per-child accumulation both measure loops share (lines 354-363 and
422-431): sum along the primary axis (`u16` add), max along the other. -/
def accStep (o : Orientation') (acc : Nat × Nat) (c' : LeafView) :
    Option (Nat × Nat) :=
  match o with
  | .Vertical =>
    match add16 acc.2 (c'.h.getD 0) with
    | none => none
    | some sh => some (max acc.1 (c'.w.getD 0), sh)
  | .Horizontal =>
    match add16 acc.1 (c'.w.getD 0) with
    | none => none
    | some sw => some (sw, max acc.2 (c'.h.getD 0))

/-- First pass (lines 350-364): measure children unconstrained and
accumulate the minimum dimensions. -/
def measureChildrenMin (o : Orientation') :
    List LeafView → Nat × Nat → Option (List LeafView × Nat × Nat)
  | [], acc => some ([], acc.1, acc.2)
  | c :: cs, acc =>
    match leafMeasure c none none with
    | none => none
    | some c' =>
      match accStep o acc c' with
      | none => none
      | some acc' =>
        match measureChildrenMin o cs acc' with
        | none => none
        | some (cs', a, b) => some (c' :: cs', a, b)

def unsizedCountW (cs : List LeafView) : Nat :=
  (cs.filter (fun c => c.w.isNone)).length

def unsizedCountH (cs : List LeafView) : Nat :=
  (cs.filter (fun c => c.h.isNone)).length

/-- `remaining / count as u16` (lines 381-384, 390-393). -/
def divSplit (rem : Nat) (count : Nat) : Option Nat :=
  match count with
  | 0 => some 0
  | _ =>
    let c16 := count % 65536
    if c16 = 0 then none else some (rem / c16)

/-- A child's spec on one axis before clamping (lines 402-410): its own
measured value if it has one, the split otherwise. -/
def specOr (own : Option Nat) (split : Option Nat) : Option Nat :=
  match own with
  | some v => some v
  | none => split

/-- The clamp of lines 412-418: on the primary axis (`cond` true) with a
bounded container, `spec = min(spec.unwrap(), max - running)`; the `unwrap`
and the `u16` subtraction can panic. Off the primary axis the spec passes
through. -/
def fitSpec (cond : Bool) (mx : Option Nat) (spec0 : Option Nat)
    (run : Nat) : Option (Option Nat) :=
  match cond, mx with
  | true, some m =>
    (match spec0 with
     | none => none
     | some s0 =>
       match sub16 m run with
       | none => none
       | some room => some (some (min s0 room)))
  | _, _ => some spec0

/-- Second pass (lines 401-432): give each child its spec (own measured
value or the split), clamp the primary axis to what is left of the
container's bound, measure, and accumulate the layout's own dimensions. -/
def measureChildrenFit (o : Orientation') (maxW maxH splitW splitH : Option Nat) :
    List LeafView → Nat × Nat → Option (List LeafView × Nat × Nat)
  | [], acc => some ([], acc.1, acc.2)
  | c :: cs, acc =>
    match fitSpec (decide (o = .Horizontal)) maxW (specOr c.w splitW) acc.1,
          fitSpec (decide (o = .Vertical)) maxH (specOr c.h splitH) acc.2 with
    | some wspec, some hspec =>
      (match leafMeasure c wspec hspec with
       | none => none
       | some c' =>
         match accStep o acc c' with
         | none => none
         | some acc' =>
           match measureChildrenFit o maxW maxH splitW splitH cs acc' with
           | none => none
           | some (cs', a, b) => some (c' :: cs', a, b))
    | _, _ => none

/-- `LinearLayout::measure` (lines 319-433), returning the layout's measured
`(w, h)` and the measured children. -/
def linearMeasure (o : Orientation') (selfW selfH : Dimension)
    (children : List LeafView) (width_spec height_spec : Option Nat) :
    Option (Nat × Nat × List LeafView) :=
  let maxW := dimSpec selfW width_spec
  let maxH := dimSpec selfH height_spec
  match measureChildrenMin o children (0, 0) with
  | none => none
  | some (cs1, minW, minH) =>
    let remW? : Option Nat :=
      match maxW with
      | some mw => sub16 mw minW
      | none => some 0
    let remH? : Option Nat :=
      match maxH with
      | some mh => sub16 mh minH
      | none => some 0
    match remW?, remH? with
    | some remW, some remH =>
      let splitW? : Option (Option Nat) :=
        match o with
        | .Vertical => some maxW
        | .Horizontal =>
          match divSplit remW (unsizedCountW cs1) with
          | none => none
          | some s => some (some s)
      let splitH? : Option (Option Nat) :=
        match o with
        | .Vertical =>
          match divSplit remH (unsizedCountH cs1) with
          | none => none
          | some s => some (some s)
        | .Horizontal => some maxH
      match splitW?, splitH? with
      | some splitW, some splitH =>
        (match measureChildrenFit o maxW maxH splitW splitH cs1 (0, 0) with
         | none => none
         | some (cs2, w, h) => some (w, h, cs2))
      | _, _ => none
    | _, _ => none

/-- C1 evidence: the remaining-space computation of `LinearLayout::measure`
is the unguarded u16 subtraction `max_width - min_width` (line 367), not a
saturating one. A horizontal layout with a single `Absolute(10)`-wide child
measured under a width constraint of 5 underflows: the spec-required result
would be `remaining = max(0, 5 - 10) = 0`, but the code's subtraction
aborts with fatal arithmetic (debug-build panic), modelled as `none`. -/
theorem c1_remaining_underflows :
    linearMeasure .Horizontal .MatchParent .MatchParent
      [⟨.Absolute 10, .Absolute 1, none, none⟩] (some 5) (some 3) = none := by
  decide

lemma mcmin_c2 (a : Nat) (ha16 : a < 65536) :
    measureChildrenMin .Horizontal
      [⟨.Absolute a, .MatchParent, none, none⟩,
       ⟨.MatchParent, .MatchParent, none, none⟩,
       ⟨.MatchParent, .MatchParent, none, none⟩] (0, 0) =
      some ([⟨.Absolute a, .MatchParent, some a, none⟩,
             ⟨.MatchParent, .MatchParent, none, none⟩,
             ⟨.MatchParent, .MatchParent, none, none⟩], a, 0) := by
  simp [measureChildrenMin, leafMeasure, leafDim, accStep, add16, ha16]

lemma mcfit_c2 (W a H s : Nat) (ha : a ≤ W) (has : a + s ≤ W)
    (hs1 : s ≤ W - a) (hs2 : s ≤ W - (a + s))
    (h1 : a < 65536) (h2 : a + s < 65536) (h3 : a + s + s < 65536) :
    measureChildrenFit .Horizontal (some W) (some H) (some s) (some H)
      [⟨.Absolute a, .MatchParent, some a, none⟩,
       ⟨.MatchParent, .MatchParent, none, none⟩,
       ⟨.MatchParent, .MatchParent, none, none⟩] (0, 0) =
      some ([⟨.Absolute a, .MatchParent, some a, some H⟩,
             ⟨.MatchParent, .MatchParent, some s, some H⟩,
             ⟨.MatchParent, .MatchParent, some s, some H⟩], a + s + s, H) := by
  simp [measureChildrenFit, fitSpec, specOr, leafMeasure, leafDim, accStep,
    add16, sub16, ha, has, h1, h2, h3, Nat.min_eq_left hs1,
    Nat.min_eq_left hs2, Nat.zero_max, min_self, Nat.min_eq_left ha]

/-- C2: a horizontal `LinearLayout` with one fixed-width child and two
elastic (`MatchParent`) children, measured under `u16` width constraint `W`
(and any height constraint): whenever the measure pass completes without
fatal arithmetic, the three children's final measured widths sum to at most
`W`, and the two elastic children's widths differ by at most one column. -/
theorem c2_linear_conservation (W a H : Nat) (hW : W < 65536)
    (ha16 : a < 65536) (out : Nat × Nat × List LeafView)
    (hm : linearMeasure .Horizontal .MatchParent .MatchParent
      [⟨.Absolute a, .MatchParent, none, none⟩,
       ⟨.MatchParent, .MatchParent, none, none⟩,
       ⟨.MatchParent, .MatchParent, none, none⟩]
      (some W) (some H) = some out) :
    ∃ w1 w2 w3,
      out.2.2.map (fun c => c.w) = [some w1, some w2, some w3] ∧
      w1 + w2 + w3 ≤ W ∧
      w2 - w3 ≤ 1 ∧ w3 - w2 ≤ 1 := by
  unfold linearMeasure at hm
  simp only [dimSpec] at hm
  rw [mcmin_c2 a ha16] at hm
  dsimp only at hm
  rw [show sub16 H 0 = some H from by simp [sub16]] at hm
  by_cases haW : a ≤ W
  · rw [show sub16 W a = some (W - a) from by simp [sub16, haW]] at hm
    dsimp only at hm
    rw [show divSplit (W - a) (unsizedCountW
        [⟨.Absolute a, .MatchParent, some a, none⟩,
         ⟨.MatchParent, .MatchParent, none, none⟩,
         ⟨.MatchParent, .MatchParent, none, none⟩]) = some ((W - a) / 2)
      from by simp [divSplit, unsizedCountW, List.filter]] at hm
    dsimp only at hm
    have hs1 : (W - a) / 2 ≤ W - a := Nat.div_le_self _ _
    have hs2 : (W - a) / 2 ≤ W - (a + (W - a) / 2) := by omega
    rw [mcfit_c2 W a H ((W - a) / 2) haW (by omega) hs1 hs2 (by omega)
      (by omega) (by omega)] at hm
    dsimp only at hm
    simp only [Option.some.injEq] at hm
    subst hm
    exact ⟨a, (W - a) / 2, (W - a) / 2, rfl, by omega, by omega, by omega⟩
  · rw [show sub16 W a = none from by simp [sub16, haW]] at hm
    dsimp only at hm
    exact Option.noConfusion hm

/-- C2 witness: fixed width 4 and two elastic children under `W = 10`,
height constraint 3: the measured widths are 4, 3, 3 — their sum 10 does
not exceed `W` and the elastic widths are equal. -/
theorem c2_linear_conservation_witness :
    ∃ w1 w2 w3,
      ((10, 3, [(⟨.Absolute 4, .MatchParent, some 4, some 3⟩ : LeafView),
        ⟨.MatchParent, .MatchParent, some 3, some 3⟩,
        ⟨.MatchParent, .MatchParent, some 3, some 3⟩]) :
          Nat × Nat × List LeafView).2.2.map (fun c => c.w) =
        [some w1, some w2, some w3] ∧
      w1 + w2 + w3 ≤ 10 ∧
      w2 - w3 ≤ 1 ∧ w3 - w2 ≤ 1 :=
  c2_linear_conservation 10 4 3 (by decide) (by decide)
    (10, 3, [⟨.Absolute 4, .MatchParent, some 4, some 3⟩,
      ⟨.MatchParent, .MatchParent, some 3, some 3⟩,
      ⟨.MatchParent, .MatchParent, some 3, some 3⟩])
    (by decide)
